import Mathlib

/-!
Shallow embedding of `rules_python/whl.py`: the `Wheel` class (filename-derived
identity, memoized METADATA parsing, PEP 508 dependency filtering, extraction
permission fixup) together with the fragments of its collaborators
(`str.split`, `os.path.basename`, `zipfile`, `email.parser`,
`packaging.requirements` / `packaging.markers`, `re.sub`, `os.chmod`) that the
verified properties depend on.  Python `set`s are modeled as canonical
sorted, duplicate-free lists; Python exceptions (`IndexError`, `KeyError`,
parse errors, undefined marker variables) are modeled with `Option`, `none`
standing for a raised exception.
-/

namespace RulesPythonWhl

/-- Model of Python `s.split(sep)` for a single-character separator, on
character lists: splits at every occurrence of the separator and keeps empty
segments, so the result is always nonempty (`''.split('-') == ['']`). -/
def pySplitCh (sep : Char) : List Char → List (List Char)
  | [] => [[]]
  | c :: rest =>
    if c = sep then [] :: pySplitCh sep rest
    else
      match pySplitCh sep rest with
      | [] => [[c]]
      | h :: t => (c :: h) :: t

/-- Model of Python `s.split(sep)` on strings. -/
def pySplit (sep : Char) (s : String) : List String :=
  (pySplitCh sep s.data).map (fun cs => String.mk cs)

/-- Model of `os.path.basename` on a POSIX system: the part of the path after
the last slash. -/
def pyBasename (s : String) : String :=
  (pySplit '/' s).getLastD ""

/-- Lexicographic strict order on character lists by code point, the order
Python uses to compare strings. -/
def lexLt : List Char → List Char → Bool
  | [], [] => false
  | [], _ :: _ => true
  | _ :: _, [] => false
  | a :: as, b :: bs => if a = b then lexLt as bs else decide (a.toNat < b.toNat)

/-- Model of Python `a < b` on strings: lexicographic by code point. -/
def pyStrLt (a b : String) : Bool := lexLt a.data b.data

/-- Model of Python `a <= b` on strings. -/
def pyStrLe (a b : String) : Bool := !pyStrLt b a

/-- Insert a string into a list kept in ascending order. -/
def orderedInsertStr (x : String) : List String → List String
  | [] => [x]
  | y :: ys => if pyStrLe x y then x :: y :: ys else y :: orderedInsertStr x ys

/-- Insertion sort by the Python string order (model of `sorted`). -/
def insertionSortStr : List String → List String
  | [] => []
  | x :: xs => orderedInsertStr x (insertionSortStr xs)

/-- Remove duplicates from a list of strings (membership semantics of a
Python `set`). -/
def dedupStr : List String → List String
  | [] => []
  | x :: xs => if x ∈ dedupStr xs then dedupStr xs else x :: dedupStr xs

/-- Canonical list representation of a Python `set` of strings together with
`sorted(...)`: duplicates removed, elements in lexicographically ascending
order.  Used both for `sorted(dependency_set)` and wherever an unordered
`set` must be given one deterministic enumeration. -/
def pySortedSet (l : List String) : List String :=
  insertionSortStr (dedupStr l)

/-- The `Wheel` object of `whl.py`: the constructor stores the path and sets
`self._metadata = None` (the lazy metadata cache). -/
structure Wheel where
  path : String
  _metadata : Option (List (String × String))

/-- Model of `Wheel.basename`: `os.path.basename(self.path())`. -/
def Wheel.basename (w : Wheel) : String := pyBasename w.path

/-- Model of `Wheel.distribution`: `self.basename().split('-')[0]`.  `none`
models a raised `IndexError` (never happens: `split` is never empty). -/
def Wheel.distribution (w : Wheel) : Option String :=
  (pySplit '-' w.basename)[0]?

/-- Model of `Wheel.version`: `self.basename().split('-')[1]`.  `none` models
a raised `IndexError` (the basename contains no hyphen). -/
def Wheel.version (w : Wheel) : Option String :=
  (pySplit '-' w.basename)[1]?

/-- Model of `re.sub('[-.+]', '_', s)`, character by character. -/
def escapeChar (c : Char) : Char :=
  if c = '-' || c = '.' || c = '+' then '_' else c

/-- Model of `re.sub('[-.+]', '_', s)` on whole strings. -/
def reSubIllegal (s : String) : String := String.mk (s.data.map escapeChar)

/-- Model of `Wheel.repository_suffix`: format the distribution and version
into `pypi__..._...` then escape `-`, `.`, `+` to `_`. -/
def Wheel.repository_suffix (w : Wheel) : Option String :=
  match w.distribution, w.version with
  | some d, some v => some (reSubIllegal ("pypi__" ++ d ++ "_" ++ v))
  | _, _ => none

/-- Model of `Wheel._dist_info`: the distribution and version joined by a
hyphen, suffixed `.dist-info`. -/
def Wheel._dist_info (w : Wheel) : Option String :=
  match w.distribution, w.version with
  | some d, some v => some (d ++ "-" ++ v ++ ".dist-info")
  | _, _ => none

/-- Characters Python considers whitespace to strip at the start of a header
value (space and tab, per `email`'s `header_source_parse`). -/
def isHeaderWS (c : Char) : Bool := c = ' ' || c = '\t'

/-- Strip leading spaces and tabs from a string. -/
def lstripWS (s : String) : String :=
  String.mk (s.data.dropWhile isHeaderWS)

/-- Split a header line at the first colon: `name: value`. `none` when the
line has no colon (the email parser records a defect and drops it). -/
def splitFirstColon : List Char → Option (List Char × List Char)
  | [] => none
  | c :: rest =>
    if c = ':' then some ([], rest)
    else (splitFirstColon rest).map (fun p => (c :: p.1, p.2))

/-- Whether a header line is a continuation line (starts with a space/tab). -/
def startsWithWS (s : String) : Bool :=
  match s.data with
  | [] => false
  | c :: _ => isHeaderWS c

/-- Model of the RFC-822 header parsing performed by `email.parser.Parser`:
each `Name: value` line becomes one header with leading whitespace stripped
from the value; a line starting with whitespace continues the previous
header's value; a line with no colon is dropped.  `acc` holds the headers
parsed so far in reverse order. -/
def parseHeaderLines : List (String × String) → List String → List (String × String)
  | acc, [] => acc.reverse
  | acc, line :: rest =>
    if startsWithWS line then
      match acc with
      | [] => parseHeaderLines [] rest
      | (n, v) :: t => parseHeaderLines ((n, v ++ "\n" ++ line) :: t) rest
    else
      match splitFirstColon line.data with
      | none => parseHeaderLines acc rest
      | some (n, v) => parseHeaderLines ((String.mk n, lstripWS (String.mk v)) :: acc) rest

/-- Model of `bytes.decode('ascii', 'ignore')`: non-ASCII code points are
silently dropped. -/
def asciiIgnore (s : String) : String :=
  String.mk (s.data.filter (fun c => c.toNat < 128))

/-- Model of `email.parser.Parser().parsestr(text)` restricted to the header
section (headers end at the first blank line). -/
def parseMetadata (s : String) : List (String × String) :=
  parseHeaderLines [] ((pySplit '\n' s).takeWhile (fun line => line ≠ ""))

/-- Lower-case a string character by character (model of `str.lower` on the
ASCII header names involved). -/
def lowerStr (s : String) : String := String.mk (s.data.map Char.toLower)

/-- Model of `email.message.Message.get_all(name, [])`: every value whose
header name matches case-insensitively, in order of appearance. -/
def get_all (m : List (String × String)) (name : String) : List String :=
  (m.filter (fun p => lowerStr p.1 = lowerStr name)).map (fun p => p.2)

/-- One member of a zip archive: its name, its 32-bit external attributes
word, and its byte content (bytes modeled as the characters of a string). -/
structure ZipEntry where
  filename : String
  external_attr : Nat
  content : String

/-- A zip archive is its list of members (`ZipFile.infolist()`). -/
structure ZipArchive where
  entries : List ZipEntry

/-- Model of `ZipFile.open(name)` followed by `read()`: the content of the
member with exactly that name; `none` models the raised `KeyError`. -/
def zipOpenRead (z : ZipArchive) (name : String) : Option String :=
  (z.entries.find? (fun e => e.filename = name)).map (fun e => e.content)

/-- Model of `Wheel.metadata`.  `fs` maps a path to the zip archive stored
there (`none` models an unreadable/corrupt archive).  Returns the parsed
headers, the updated `Wheel` (cache possibly filled in), and how many times
the archive was opened and read during the call (0 on a cache hit, 1 on a
miss); `none` models a propagated exception. -/
def Wheel.metadata (fs : String → Option ZipArchive) (w : Wheel) :
    Option (List (String × String) × Wheel × Nat) :=
  match w._metadata with
  | some m => some (m, w, 0)
  | none =>
    match w._dist_info with
    | none => none
    | some di =>
      match fs w.path with
      | none => none
      | some z =>
        match zipOpenRead z (di ++ "/METADATA") with
        | none => none
        | some raw =>
          let m := parseMetadata (asciiIgnore raw)
          some (m, { w with _metadata := some m }, 1)

/-- Comparison operators of the PEP 508 marker subset exercised here. -/
inductive MOp where
  | eq
  | ne
deriving DecidableEq

/-- A PEP 508 environment marker: comparisons of an environment variable
against a quoted literal, combined with `and` / `or`. -/
inductive Marker where
  | comp (lhs : String) (op : MOp) (rhs : String)
  | conj (a b : Marker)
  | disj (a b : Marker)
deriving DecidableEq

/-- Model of `packaging.requirements.Requirement`: the dependency name, the
extras requested on the target (stored as a Python `set`, here in canonical
sorted duplicate-free form), and the optional marker.  The version specifier
is parsed and discarded because `Wheel.dependencies` never reads it. -/
structure Requirement where
  name : String
  extras : List String
  marker : Option Marker
deriving DecidableEq

/-- Drop leading spaces and tabs from a character stream. -/
def skipSpaces (cs : List Char) : List Char := cs.dropWhile isHeaderWS

/-- Characters allowed in a PEP 508 distribution/extra name. -/
def isNameChar (c : Char) : Bool := c.isAlphanum || c = '-' || c = '_' || c = '.'

/-- Characters allowed in a marker environment-variable name. -/
def isVarChar (c : Char) : Bool := c.isAlphanum || c = '_' || c = '.'

/-- Parse a nonempty run of characters satisfying `pred`. -/
def parseIdent (pred : Char → Bool) (cs : List Char) : Option (String × List Char) :=
  let n := cs.takeWhile pred
  if n.isEmpty then none else some (String.mk n, cs.drop n.length)

/-- Parse the comma-separated extras list after an opening bracket, up to and
including the closing bracket.  Fueled recursion. -/
def parseExtrasAux : Nat → List Char → Option (List String × List Char)
  | 0, _ => none
  | fuel + 1, cs =>
    match parseIdent isNameChar (skipSpaces cs) with
    | none => none
    | some (e, rest) =>
      match skipSpaces rest with
      | ',' :: rest2 => (parseExtrasAux fuel rest2).map (fun p => (e :: p.1, p.2))
      | ']' :: rest2 => some ([e], rest2)
      | _ => none

/-- The single-quote character. -/
def squoteCh : Char := Char.ofNat 39

/-- The double-quote character. -/
def dquoteCh : Char := Char.ofNat 34

/-- Parse a literal quoted by the character `q`. -/
def parseQuotedWith (q : Char) (cs : List Char) : Option (String × List Char) :=
  match cs with
  | c :: rest =>
    if c = q then
      let v := rest.takeWhile (fun d => d ≠ q)
      match rest.drop v.length with
      | d :: rest2 => if d = q then some (String.mk v, rest2) else none
      | [] => none
    else none
  | [] => none

/-- Parse a PEP 508 quoted string literal (single or double quotes). -/
def parseQuoted (cs : List Char) : Option (String × List Char) :=
  (parseQuotedWith squoteCh cs).orElse (fun _ => parseQuotedWith dquoteCh cs)

/-- Parse a marker comparison operator. -/
def parseOp (cs : List Char) : Option (MOp × List Char) :=
  match cs with
  | '=' :: '=' :: rest => some (MOp.eq, rest)
  | '!' :: '=' :: rest => some (MOp.ne, rest)
  | _ => none

/-- Parse one marker comparison `var op "literal"`. -/
def parseComparison (cs : List Char) : Option (Marker × List Char) := do
  let (v, r1) ← parseIdent isVarChar (skipSpaces cs)
  let (op, r2) ← parseOp (skipSpaces r1)
  let (lit, r3) ← parseQuoted (skipSpaces r2)
  pure (Marker.comp v op lit, r3)

/-- Consume the keyword `kw` (after leading whitespace) when it is present as
a whole word; `none` when it is not. -/
def peekKeyword (kw : List Char) (cs : List Char) : Option (List Char) :=
  let cs2 := skipSpaces cs
  if cs2.take kw.length = kw && !((cs2.drop kw.length).headD ' ').isAlphanum then
    some (cs2.drop kw.length)
  else none

/-- Parse a chain of comparisons joined by `and`. -/
def parseAndChain : Nat → List Char → Option (Marker × List Char)
  | 0, _ => none
  | fuel + 1, cs => do
    let (m, rest) ← parseComparison cs
    match peekKeyword ['a', 'n', 'd'] rest with
    | some rest2 => (parseAndChain fuel rest2).map (fun p => (Marker.conj m p.1, p.2))
    | none => some (m, rest)

/-- Parse a chain of `and`-chains joined by `or` (`or` binds loosest). -/
def parseOrChain : Nat → List Char → Option (Marker × List Char)
  | 0, _ => none
  | fuel + 1, cs => do
    let (m, rest) ← parseAndChain (fuel + 1) cs
    match peekKeyword ['o', 'r'] rest with
    | some rest2 => (parseOrChain fuel rest2).map (fun p => (Marker.disj m p.1, p.2))
    | none => some (m, rest)

/-- Parse a whole marker expression; the whole remaining input must be
consumed. -/
def parseMarkerExpr (cs : List Char) : Option Marker := do
  let (m, rest) ← parseOrChain (cs.length + 1) cs
  if (skipSpaces rest).isEmpty then pure m else none

/-- Skip a version specifier: either a parenthesized one or a bare one
starting with a comparison character, running up to the `;` that starts the
marker (the specifier is irrelevant to `Wheel.dependencies`). -/
def skipVersionSpec : List Char → Option (List Char)
  | '(' :: rest =>
    (match rest.dropWhile (fun c => c ≠ ')') with
     | _ :: rest2 => some rest2
     | [] => none)
  | cs =>
    match cs with
    | c :: _ =>
      if c = '<' || c = '>' || c = '=' || c = '!' || c = '~' then
        some (cs.dropWhile (fun d => d ≠ ';'))
      else some cs
    | [] => some []

/-- The grammar pass of `packaging.requirements.Requirement(s)` on the subset
`name [extras] (version-spec) ; marker`: the name, the extras exactly as
written, and the optional marker.  `none` models the raised
`InvalidRequirement`. -/
def parseRequirementAux (s : String) : Option (String × List String × Option Marker) := do
  let cs := skipSpaces s.data
  let (nm, r1) ← parseIdent isNameChar cs
  let (exs, r2) ←
    match skipSpaces r1 with
    | '[' :: rest => parseExtrasAux (rest.length + 1) rest
    | other => some (([] : List String), other)
  let r3 ← skipVersionSpec (skipSpaces r2)
  match skipSpaces r3 with
  | ';' :: r4 => do
    let m ← parseMarkerExpr r4
    pure (nm, exs, some m)
  | [] => pure (nm, exs, none)
  | _ => none

/-- Model of `packaging.requirements.Requirement(s)`: parse, then build the
object whose `extras` attribute is `set(...)` of the written extras (the set
in canonical sorted duplicate-free form). -/
def parseRequirement (s : String) : Option Requirement :=
  (parseRequirementAux s).map (fun t =>
    { name := t.1, extras := pySortedSet t.2.1, marker := t.2.2 })

/-- The marker-evaluation environment of `Wheel.dependencies`:
`packaging.markers.default_environment()` (an abstract string-valued mapping
`baseEnv`) with the key `extra` set to the requested extra — present with
value `None` when `extra` is `None`.  The outer `Option` is key presence, the
inner one the Python value (`none` = Python `None`). -/
def extendEnv (baseEnv : String → Option String) (extra : Option String) :
    String → Option (Option String) :=
  fun k => if k = "extra" then some extra else (baseEnv k).map some

/-- Model of `packaging.markers.Marker.evaluate(environment)` on the embedded
marker grammar: a comparison looks the variable up (`none` models the raised
`UndefinedEnvironmentName`) and compares string values (`None == s` is false,
`None != s` is true, as in Python); `and` / `or` evaluate both sides. -/
def evalMarker (env : String → Option (Option String)) : Marker → Option Bool
  | Marker.comp lhs op rhs =>
    match env lhs with
    | none => none
    | some v =>
      match op with
      | MOp.eq => some (v == some rhs)
      | MOp.ne => some (v != some rhs)
  | Marker.conj a b => do
    let x ← evalMarker env a
    let y ← evalMarker env b
    pure (x && y)
  | Marker.disj a b => do
    let x ← evalMarker env a
    let y ← evalMarker env b
    pure (x || y)

/-- The filtering step of `Wheel.dependencies` for one parsed requirement:
`if parsed_requirement.marker and not parsed_requirement.marker.evaluate(...)`
— keep when there is no marker, otherwise keep iff the marker evaluates true. -/
def markerKeep (env : String → Option (Option String)) (req : Requirement) :
    Option Bool :=
  match req.marker with
  | some m => evalMarker env m
  | none => some true

/-- The projection step of `Wheel.dependencies`: `name[e1,e2]` when the
requirement requests extras on its target (joined over the extras set with
`','.join`, no whitespace), else the bare name. -/
def project (req : Requirement) : String :=
  if req.extras.isEmpty then req.name
  else req.name ++ "[" ++ String.intercalate "," req.extras ++ "]"

/-- Processing of one `Requires-Dist` value inside the loop of
`Wheel.dependencies`: parse it, evaluate its marker, and return the projected
specifier it contributes (`some none` = filtered out by its marker; outer
`none` = a propagated parse/evaluation exception). -/
def perEntry (env : String → Option (Option String)) (r : String) :
    Option (Option String) :=
  match parseRequirement r with
  | none => none
  | some req =>
    match markerKeep env req with
    | none => none
    | some keep => some (if keep then some (project req) else none)

/-- The loop of `Wheel.dependencies` over all `Requires-Dist` values: the
specifiers added to `dependency_set`, in loop order, before deduplication. -/
def collectSpecs (env : String → Option (Option String)) :
    List String → Option (List String)
  | [] => some []
  | r :: rest =>
    match perEntry env r with
    | none => none
    | some o =>
      match collectSpecs env rest with
      | none => none
      | some s =>
        some
          (match o with
           | some x => x :: s
           | none => s)

/-- The functional core of `Wheel.dependencies`: given the environment base
(`packaging.markers.default_environment()`), the `Requires-Dist` header
values, and the requested extra, return `sorted(dependency_set)`. -/
def dependenciesOf (baseEnv : String → Option String) (requiresDist : List String)
    (extra : Option String) : Option (List String) :=
  (collectSpecs (extendEnv baseEnv extra) requiresDist).map pySortedSet

/-- Model of `Wheel.dependencies(extra)` on the descriptor: read (possibly
cached) metadata, then filter and sort its `Requires-Dist` values. -/
def Wheel.dependencies (fs : String → Option ZipArchive)
    (baseEnv : String → Option String) (w : Wheel) (extra : Option String) :
    Option (List String × Wheel) := do
  let (m, w2, _) ← w.metadata fs
  let deps ← dependenciesOf baseEnv (get_all m "Requires-Dist") extra
  pure (deps, w2)

/-- Model of `Wheel.extras`: `set(metadata.get_all('Provides-Extra', []))`,
the set in canonical sorted duplicate-free form. -/
def Wheel.extras (fs : String → Option ZipArchive) (w : Wheel) :
    Option (List String × Wheel) := do
  let (m, w2, _) ← w.metadata fs
  pure (pySortedSet (get_all m "Provides-Extra"), w2)

/-- Bitwise combination of two natural numbers, low bit first, with enough
fuel to exhaust both arguments.  Models Python's bitwise operators on
nonnegative ints. -/
def natBitwiseAux (f : Bool → Bool → Bool) : Nat → Nat → Nat → Nat
  | 0, _, _ => 0
  | fuel + 1, m, n =>
    if m == 0 && n == 0 then 0
    else
      (if f (m % 2 == 1) (n % 2 == 1) then 1 else 0) +
        2 * natBitwiseAux f fuel (m / 2) (n / 2)

/-- Model of Python `m & n` on nonnegative ints. -/
def pyAnd (m n : Nat) : Nat := natBitwiseAux (fun a b => a && b) (m + n + 1) m n

/-- Model of Python `m | n` on nonnegative ints. -/
def pyOr (m n : Nat) : Nat := natBitwiseAux (fun a b => a || b) (m + n + 1) m n

/-- Model of Python `m & ~n` on nonnegative ints (the only use of `~` in the
source): keep the bits of `m` that are clear in `n`. -/
def pyAndNot (m n : Nat) : Nat := natBitwiseAux (fun a b => a && !b) (m + n + 1) m n

/-- The mode `set_extracted_file_to_default_mode_plus_executable` passes to
`os.chmod`: `0o777 & ~current_umask() | 0o111`. -/
def default_mode_plus_executable (umask : Nat) : Nat :=
  pyOr (pyAndNot 0o777 umask) 0o111

/-- The backslash character. -/
def backslashCh : Char := Char.ofNat 92

/-- Model of Python `s.endswith(c)` for a single character. -/
def pyEndsWithChar (c : Char) (s : String) : Bool :=
  match s.data.getLast? with
  | some d => d = c
  | none => false

/-- The directory-marker test of `Wheel.expand`:
`name.endswith("/") or name.endswith("\\")`. -/
def isDirEntryName (name : String) : Bool :=
  pyEndsWithChar '/' name || pyEndsWithChar backslashCh name

/-- Model of `stat.S_ISREG`: the file-type bits equal the regular-file type. -/
def S_ISREG (mode : Nat) : Bool := pyAnd mode 0o170000 == 0o100000

/-- Whether a path is absolute (starts with a slash). -/
def startsWithSlash (s : String) : Bool :=
  match s.data with
  | c :: _ => c = '/'
  | [] => false

/-- Model of `os.path.join(dir, name)` for two POSIX path components. -/
def pathJoin (dir name : String) : String :=
  if startsWithSlash name then name
  else if dir = "" then name
  else if pyEndsWithChar '/' dir then dir ++ name
  else dir ++ "/" ++ name

/-- The permission-fixup decision of `Wheel.expand` for one archive entry:
skip directory markers; otherwise take the stored mode from the upper 16 bits
of the external attributes, and when it is nonzero, a regular file, and has
an execute bit, record the `os.chmod` call (path, new mode) it performs. -/
def chmodAction (umask : Nat) (dir : String) (e : ZipEntry) :
    Option (String × Nat) :=
  if isDirEntryName e.filename then none
  else
    let mode := e.external_attr / 65536
    if mode != 0 && S_ISREG mode && pyAnd mode 0o111 != 0 then
      some (pathJoin dir e.filename, default_mode_plus_executable umask)
    else none

/-- Model of the permission-fixup pass of `Wheel.expand(directory)`: the list
of `os.chmod` calls it performs after `extractall`, in entry order.  `none`
models a failed archive open. -/
def Wheel.expandChmods (umask : Nat) (fs : String → Option ZipArchive)
    (w : Wheel) (dir : String) : Option (List (String × Nat)) :=
  (fs w.path).map (fun z => z.entries.filterMap (chmodAction umask dir))

/-! Properties of the string order. -/

theorem char_toNat_inj {a b : Char} (h : a.toNat = b.toNat) : a = b :=
  Char.eq_of_val_eq (UInt32.eq_of_toBitVec_eq (BitVec.toNat_injective h))

theorem lexLt_asymm : ∀ {a b : List Char}, lexLt a b = true → lexLt b a = false
  | [], [], h => by simp [lexLt] at h
  | [], _ :: _, _ => by simp [lexLt]
  | _ :: _, [], h => by simp [lexLt] at h
  | a :: as, b :: bs, h => by
    by_cases hab : a = b
    · subst hab
      simp only [lexLt, if_pos rfl] at h ⊢
      exact lexLt_asymm h
    · simp only [lexLt, if_neg hab, decide_eq_true_eq] at h
      simp only [lexLt, if_neg (Ne.symm hab), decide_eq_false_iff_not]
      omega

theorem lexLt_conn : ∀ {a b : List Char}, lexLt a b = false → lexLt b a = false → a = b
  | [], [], _, _ => rfl
  | [], _ :: _, h, _ => by simp [lexLt] at h
  | _ :: _, [], _, h => by simp [lexLt] at h
  | a :: as, b :: bs, h1, h2 => by
    by_cases hab : a = b
    · subst hab
      simp only [lexLt, if_pos rfl] at h1 h2
      exact congrArg _ (lexLt_conn h1 h2)
    · simp only [lexLt, if_neg hab, decide_eq_false_iff_not] at h1
      simp only [lexLt, if_neg (Ne.symm hab), decide_eq_false_iff_not] at h2
      exact absurd (char_toNat_inj (by omega)) hab

theorem string_data_inj {a b : String} (h : a.data = b.data) : a = b := by
  cases a; cases b; cases h; rfl

theorem pyStrLt_asymm {a b : String} (h : pyStrLt a b = true) : pyStrLt b a = false :=
  lexLt_asymm h

theorem pyStrLt_conn {a b : String} (h1 : pyStrLt a b = false)
    (h2 : pyStrLt b a = false) : a = b :=
  string_data_inj (lexLt_conn h1 h2)

theorem pyStrLe_total (a b : String) : pyStrLe a b = true ∨ pyStrLe b a = true := by
  by_cases h : pyStrLt b a = true
  · right
    simp [pyStrLe, pyStrLt_asymm h]
  · left
    simp only [Bool.not_eq_true] at h
    simp [pyStrLe, h]

theorem lexLt_irrefl : ∀ a : List Char, lexLt a a = false
  | [] => rfl
  | x :: xs => by simp [lexLt, lexLt_irrefl xs]

theorem lexLt_trans : ∀ {a b c : List Char},
    lexLt a b = true → lexLt b c = true → lexLt a c = true
  | [], _, _ :: _, _, _ => rfl
  | [], b, [], _, h2 => by cases b <;> simp [lexLt] at h2
  | _ :: _, [], _, h1, _ => by simp [lexLt] at h1
  | _ :: _, _ :: _, [], _, h2 => by simp [lexLt] at h2
  | x :: xs, y :: ys, z :: zs, h1, h2 => by
    by_cases hxy : x = y <;> by_cases hyz : y = z
    · subst hxy; subst hyz
      simp only [lexLt, if_pos rfl] at h1 h2 ⊢
      exact lexLt_trans h1 h2
    · subst hxy
      simp only [lexLt, if_pos rfl] at h1
      simp only [lexLt, if_neg hyz, decide_eq_true_eq] at h2
      have hxz : x ≠ z := fun he => by rw [he] at h2; omega
      simp [lexLt, if_neg hxz, h2]
    · subst hyz
      simp only [lexLt, if_neg hxy, decide_eq_true_eq] at h1
      have hxz : x ≠ y := hxy
      simp [lexLt, if_neg hxz, h1]
    · simp only [lexLt, if_neg hxy, decide_eq_true_eq] at h1
      simp only [lexLt, if_neg hyz, decide_eq_true_eq] at h2
      have hxz : x ≠ z := fun he => by rw [he] at h1; omega
      simp only [lexLt, if_neg hxz, decide_eq_true_eq]
      omega

theorem pyStrLe_trans {a b c : String} (h1 : pyStrLe a b = true)
    (h2 : pyStrLe b c = true) : pyStrLe a c = true := by
  simp only [pyStrLe, pyStrLt, Bool.not_eq_true'] at h1 h2 ⊢
  by_contra hcon
  simp only [Bool.not_eq_false] at hcon
  by_cases hab : lexLt a.data b.data = true
  · have hcb : lexLt c.data b.data = true := lexLt_trans hcon hab
    rw [hcb] at h2
    cases h2
  · simp only [Bool.not_eq_true] at hab
    have he : a.data = b.data := lexLt_conn hab h1
    rw [← he] at h2
    rw [hcon] at h2
    cases h2

theorem pyStrLt_of_le_of_ne {a b : String} (hle : pyStrLe a b = true)
    (hne : a ≠ b) : pyStrLt a b = true := by
  by_cases h : pyStrLt a b = true
  · exact h
  · have h1 : pyStrLt a b = false := by simpa using h
    have h2 : pyStrLt b a = false := by simpa [pyStrLe] using hle
    exact absurd (pyStrLt_conn h1 h2) hne

/-! Properties of the sorted-set construction. -/

theorem mem_orderedInsertStr {x y : String} {l : List String} :
    y ∈ orderedInsertStr x l ↔ y = x ∨ y ∈ l := by
  induction l with
  | nil => simp [orderedInsertStr]
  | cons z zs ih =>
    by_cases h : pyStrLe x z = true
    · simp only [orderedInsertStr, if_pos h]
      simp
    · simp only [orderedInsertStr, if_neg h, List.mem_cons, ih]
      tauto

theorem orderedInsertStr_perm (x : String) (l : List String) :
    List.Perm (orderedInsertStr x l) (x :: l) := by
  induction l with
  | nil => exact List.Perm.refl _
  | cons z zs ih =>
    by_cases h : pyStrLe x z = true
    · simp only [orderedInsertStr, if_pos h]
      exact List.Perm.refl _
    · simp only [orderedInsertStr, if_neg h]
      exact (ih.cons z).trans (List.Perm.swap x z zs)

theorem pairwise_le_orderedInsertStr (x : String) {l : List String}
    (hl : l.Pairwise (fun a b => pyStrLe a b = true)) :
    (orderedInsertStr x l).Pairwise (fun a b => pyStrLe a b = true) := by
  induction l with
  | nil => simp [orderedInsertStr]
  | cons z zs ih =>
    rcases List.pairwise_cons.mp hl with ⟨hz, hzs⟩
    by_cases hle : pyStrLe x z = true
    · simp only [orderedInsertStr, if_pos hle]
      refine List.pairwise_cons.mpr ⟨?_, hl⟩
      intro y hy
      rcases List.mem_cons.mp hy with rfl | hy
      · exact hle
      · exact pyStrLe_trans hle (hz y hy)
    · simp only [orderedInsertStr, if_neg hle]
      refine List.pairwise_cons.mpr ⟨?_, ih hzs⟩
      intro y hy
      rcases mem_orderedInsertStr.mp hy with heq | hy
      · rcases pyStrLe_total x z with h1 | h1
        · exact absurd h1 hle
        · rw [heq]
          exact h1
      · exact hz y hy

theorem insertionSortStr_perm : ∀ l : List String, List.Perm (insertionSortStr l) l
  | [] => List.Perm.refl _
  | x :: xs =>
    (orderedInsertStr_perm x (insertionSortStr xs)).trans
      ((insertionSortStr_perm xs).cons x)

theorem pairwise_le_insertionSortStr :
    ∀ l : List String, (insertionSortStr l).Pairwise (fun a b => pyStrLe a b = true)
  | [] => List.Pairwise.nil
  | x :: xs => pairwise_le_orderedInsertStr x (pairwise_le_insertionSortStr xs)

theorem mem_dedupStr {x : String} {l : List String} : x ∈ dedupStr l ↔ x ∈ l := by
  induction l with
  | nil => exact Iff.rfl
  | cons y ys ih =>
    by_cases h : y ∈ dedupStr ys
    · simp only [dedupStr, if_pos h, List.mem_cons]
      rw [ih]
      constructor
      · exact Or.inr
      · rintro (rfl | hx)
        · exact ih.mp h
        · exact hx
    · simp only [dedupStr, if_neg h, List.mem_cons]
      rw [ih]

theorem nodup_dedupStr : ∀ l : List String, (dedupStr l).Nodup
  | [] => List.nodup_nil
  | y :: ys => by
    by_cases h : y ∈ dedupStr ys
    · simpa only [dedupStr, if_pos h] using nodup_dedupStr ys
    · simp only [dedupStr, if_neg h]
      exact List.Nodup.cons h (nodup_dedupStr ys)

theorem mem_pySortedSet {x : String} {l : List String} :
    x ∈ pySortedSet l ↔ x ∈ l := by
  unfold pySortedSet
  rw [(insertionSortStr_perm (dedupStr l)).mem_iff]
  exact mem_dedupStr

theorem nodup_pySortedSet (l : List String) : (pySortedSet l).Nodup :=
  ((insertionSortStr_perm (dedupStr l)).nodup_iff).mpr (nodup_dedupStr l)

theorem pairwise_lt_pySortedSet (l : List String) :
    (pySortedSet l).Pairwise (fun a b => pyStrLt a b = true) := by
  have hle := pairwise_le_insertionSortStr (dedupStr l)
  have hne : (pySortedSet l).Pairwise (fun a b => a ≠ b) := nodup_pySortedSet l
  exact (hle.and hne).imp (fun h => pyStrLt_of_le_of_ne h.1 h.2)

theorem pySortedSet_perm_eq {l1 l2 : List String} (h : List.Perm l1 l2) :
    pySortedSet l1 = pySortedSet l2 := by
  have hd : List.Perm (dedupStr l1) (dedupStr l2) := by
    rw [List.perm_ext_iff_of_nodup (nodup_dedupStr l1) (nodup_dedupStr l2)]
    intro a
    rw [mem_dedupStr, mem_dedupStr]
    exact h.mem_iff
  have hperm : List.Perm (pySortedSet l1) (pySortedSet l2) :=
    ((insertionSortStr_perm (dedupStr l1)).trans hd).trans
      (insertionSortStr_perm (dedupStr l2)).symm
  haveI : IsAntisymm String (fun a b => pyStrLt a b = true) := by
    constructor
    intro a b h1 h2
    rw [pyStrLt_asymm h1] at h2
    cases h2
  exact List.eq_of_perm_of_sorted hperm (pairwise_lt_pySortedSet l1)
    (pairwise_lt_pySortedSet l2)

/-! Properties of the filename split. -/

theorem string_data_append (a b : String) : (a ++ b).data = a.data ++ b.data := by
  cases a
  cases b
  rfl

theorem string_mk_data (s : String) : String.mk s.data = s := by
  cases s
  rfl

theorem pySplitCh_ne_nil (sep : Char) : ∀ cs : List Char, pySplitCh sep cs ≠ []
  | [] => by simp [pySplitCh]
  | c :: rest => by
    by_cases h : c = sep
    · simp [pySplitCh, h]
    · simp only [pySplitCh, if_neg h]
      cases hrec : pySplitCh sep rest with
      | nil => simp
      | cons a t => simp

theorem pySplitCh_append {sep : Char} (cs : List Char) (hcs : sep ∉ cs)
    (rest : List Char) :
    pySplitCh sep (cs ++ sep :: rest) = cs :: pySplitCh sep rest := by
  induction cs with
  | nil => simp [pySplitCh]
  | cons c cs ih =>
    simp only [List.mem_cons, not_or] at hcs
    have hc : ¬ c = sep := fun he => hcs.1 he.symm
    simp only [List.cons_append, pySplitCh, if_neg hc, List.append_eq, ih hcs.2]

theorem two_le_length_pySplitCh {sep : Char} :
    ∀ {cs : List Char}, sep ∈ cs → 2 ≤ (pySplitCh sep cs).length
  | c :: rest, hmem => by
    by_cases h : c = sep
    · have hne := pySplitCh_ne_nil sep rest
      have hpos : 0 < (pySplitCh sep rest).length := List.length_pos.mpr hne
      simp only [pySplitCh, if_pos h, List.length_cons]
      omega
    · have hrest : sep ∈ rest := by
        rcases List.mem_cons.mp hmem with heq | hrest
        · exact absurd heq.symm h
        · exact hrest
      have ih := two_le_length_pySplitCh hrest
      simp only [pySplitCh, if_neg h]
      cases hrec : pySplitCh sep rest with
      | nil => exact absurd hrec (pySplitCh_ne_nil sep rest)
      | cons a t =>
        rw [hrec] at ih
        simpa using ih

/-! Properties of the dependency-collection loop. -/

theorem collectSpecs_middle_skip {env : String → Option (Option String)}
    {r : String} (hr : perEntry env r = some none) :
    ∀ (rd1 rd2 : List String),
      collectSpecs env (rd1 ++ r :: rd2) = collectSpecs env (rd1 ++ rd2)
  | [], rd2 => by
    cases hc : collectSpecs env rd2 <;>
      simp [collectSpecs, hr, hc]
  | a :: rd1, rd2 => by
    simp only [List.cons_append, collectSpecs, List.append_eq,
      collectSpecs_middle_skip hr rd1 rd2]

theorem mem_collectSpecs {env : String → Option (Option String)} {str : String} :
    ∀ {rd : List String} {s : List String}, collectSpecs env rd = some s →
      ∀ {r : String}, r ∈ rd → perEntry env r = some (some str) → str ∈ s
  | [], _, _, _, hmem, _ => absurd hmem (List.not_mem_nil _)
  | a :: rest, s, h, r, hmem, hr => by
    simp only [collectSpecs] at h
    rcases hpe : perEntry env a with _ | o <;> simp only [hpe] at h
    · exact Option.noConfusion h
    · rcases hcc : collectSpecs env rest with _ | s' <;> simp only [hcc] at h
      · exact Option.noConfusion h
      · cases h
        rcases List.mem_cons.mp hmem with heq | hmem2
        · rw [← heq] at hpe
          rw [hr] at hpe
          cases hpe
          exact List.mem_cons_self _ _
        · have hmem3 : str ∈ s' := mem_collectSpecs hcc hmem2 hr
          cases o with
          | some v => exact List.mem_cons_of_mem _ hmem3
          | none => exact hmem3

theorem exists_entry_of_mem_collectSpecs {env : String → Option (Option String)} :
    ∀ {rd : List String} {s : List String}, collectSpecs env rd = some s →
      ∀ {str : String}, str ∈ s →
        ∃ r, r ∈ rd ∧ perEntry env r = some (some str)
  | [], s, h, str, hmem => by
    simp only [collectSpecs] at h
    cases h
    exact absurd hmem (List.not_mem_nil _)
  | a :: rest, s, h, str, hmem => by
    simp only [collectSpecs] at h
    rcases hpe : perEntry env a with _ | o <;> simp only [hpe] at h
    · exact Option.noConfusion h
    · rcases hcc : collectSpecs env rest with _ | s' <;> simp only [hcc] at h
      · exact Option.noConfusion h
      · cases h
        cases o with
        | some v =>
          rcases List.mem_cons.mp hmem with heq | hmem2
          · exact ⟨a, List.mem_cons_self _ _, by rw [hpe, heq]⟩
          · rcases exists_entry_of_mem_collectSpecs hcc hmem2 with ⟨r, hrmem, hr⟩
            exact ⟨r, List.mem_cons_of_mem _ hrmem, hr⟩
        | none =>
          rcases exists_entry_of_mem_collectSpecs hcc hmem with ⟨r, hrmem, hr⟩
          exact ⟨r, List.mem_cons_of_mem _ hrmem, hr⟩

theorem collectSpecs_perm {env : String → Option (Option String)}
    {rd1 rd2 : List String} (hp : List.Perm rd1 rd2) :
    ∀ {s1 : List String}, collectSpecs env rd1 = some s1 →
      ∃ s2, collectSpecs env rd2 = some s2 ∧ List.Perm s1 s2 := by
  induction hp with
  | nil =>
    intro s1 h
    simp only [collectSpecs] at h
    cases h
    exact ⟨[], rfl, List.Perm.refl _⟩
  | cons x p ih =>
    rename_i t1 t2
    intro s1 h
    simp only [collectSpecs] at h
    rcases hpe : perEntry env x with _ | o <;> simp only [hpe] at h
    · exact Option.noConfusion h
    · rcases hcc : collectSpecs env t1 with _ | s' <;> simp only [hcc] at h
      · exact Option.noConfusion h
      · cases h
        rcases ih hcc with ⟨t', ht', hperm⟩
        cases o with
        | some v =>
          refine ⟨v :: t', ?_, hperm.cons v⟩
          simp only [collectSpecs, hpe, ht']
        | none =>
          refine ⟨t', ?_, hperm⟩
          simp only [collectSpecs, hpe, ht']
  | swap x y t =>
    intro s1 h
    simp only [collectSpecs] at h
    rcases hpy : perEntry env y with _ | oy <;> simp only [hpy] at h
    · exact Option.noConfusion h
    · rcases hpx : perEntry env x with _ | ox <;> simp only [hpx] at h
      · exact Option.noConfusion h
      · rcases hcc : collectSpecs env t with _ | s <;> simp only [hcc] at h
        · exact Option.noConfusion h
        · cases h
          cases ox with
          | some vx =>
            cases oy with
            | some vy =>
              refine ⟨vx :: vy :: s, ?_, List.Perm.swap vx vy s⟩
              simp only [collectSpecs, hpx, hpy, hcc]
            | none =>
              refine ⟨vx :: s, ?_, List.Perm.refl _⟩
              simp only [collectSpecs, hpx, hpy, hcc]
          | none =>
            cases oy with
            | some vy =>
              refine ⟨vy :: s, ?_, List.Perm.refl _⟩
              simp only [collectSpecs, hpx, hpy, hcc]
            | none =>
              refine ⟨s, ?_, List.Perm.refl _⟩
              simp only [collectSpecs, hpx, hpy, hcc]
  | trans p1 p2 ih1 ih2 =>
    intro s1 h
    rcases ih1 h with ⟨s2, hs2, hperm12⟩
    rcases ih2 hs2 with ⟨s3, hs3, hperm23⟩
    exact ⟨s3, hs3, hperm12.trans hperm23⟩

theorem dependenciesOf_perm {baseEnv : String → Option String}
    {rd1 rd2 : List String} {extra : Option String} {l : List String}
    (hp : List.Perm rd1 rd2) (h : dependenciesOf baseEnv rd1 extra = some l) :
    dependenciesOf baseEnv rd2 extra = some l := by
  unfold dependenciesOf at h ⊢
  rcases Option.map_eq_some'.mp h with ⟨s1, hs1, hl⟩
  rcases collectSpecs_perm hp hs1 with ⟨s2, hs2, hperm⟩
  rw [hs2]
  simp only [Option.map_some']
  rw [← pySortedSet_perm_eq hperm, hl]

theorem data_string_mk (l : List Char) : (String.mk l).data = l := rfl

theorem perEntry_eq_some_some {env : String → Option (Option String)}
    {r : String} {str : String} (h : perEntry env r = some (some str)) :
    ∃ req, parseRequirement r = some req ∧ markerKeep env req = some true ∧
      project req = str := by
  rcases hp : parseRequirement r with _ | req <;> simp only [perEntry, hp] at h
  · exact Option.noConfusion h
  · rcases hk : markerKeep env req with _ | keep <;> simp only [hk] at h
    · exact Option.noConfusion h
    · cases keep with
      | false => simp at h
      | true =>
        injection h with h1
        injection h1 with h2
        exact ⟨req, rfl, hk, h2⟩

theorem parseRequirement_extras_canonical {r : String} {req : Requirement}
    (h : parseRequirement r = some req) : ∃ es, req.extras = pySortedSet es := by
  unfold parseRequirement at h
  rcases Option.map_eq_some'.mp h with ⟨t, _, ht⟩
  exact ⟨t.2.1, by rw [← ht]⟩

theorem pySplit_wheel_name {b D V : String} (hD : '-' ∉ D.data) (hV : '-' ∉ V.data)
    (hb : b = D ++ "-" ++ V ++ "-py3-none-any.whl") :
    pySplit '-' b = D :: V :: ["py3", "none", "any.whl"] := by
  subst hb
  unfold pySplit
  rw [string_data_append, string_data_append, string_data_append]
  have h1 : ("-" : String).data = ['-'] := rfl
  have h2 : ("-py3-none-any.whl" : String).data =
      '-' :: ("py3-none-any.whl" : String).data := rfl
  rw [h1, h2]
  rw [List.append_assoc, List.append_assoc, List.singleton_append]
  rw [pySplitCh_append D.data hD _]
  rw [pySplitCh_append V.data hV _]
  simp only [List.map_cons, string_mk_data]
  rfl

/-! Fixtures: the sample archive of the end-to-end scenario and concrete
marker environments. -/

/-- The sample wheel descriptor, freshly constructed. -/
def sampleWheel : Wheel := ⟨"sample_pkg-1.2.3-py3-none-any.whl", none⟩

/-- The METADATA content of the sample wheel. -/
def sampleMetadataText : String :=
  "Name: sample-pkg\nRequires-Dist: six\nRequires-Dist: mock; extra == \x22test\x22\nProvides-Extra: test\n"

/-- The sample wheel archive: one member, the METADATA file. -/
def sampleZip : ZipArchive :=
  ⟨[⟨"sample_pkg-1.2.3.dist-info/METADATA", 0, sampleMetadataText⟩]⟩

/-- A filesystem holding exactly the sample wheel at its path. -/
def sampleFs : String → Option ZipArchive :=
  fun p => if p = "sample_pkg-1.2.3-py3-none-any.whl" then some sampleZip else none

/-- The parsed headers of the sample METADATA. -/
def sampleHeaders : List (String × String) :=
  [("Name", "sample-pkg"), ("Requires-Dist", "six"),
   ("Requires-Dist", "mock; extra == \x22test\x22"), ("Provides-Extra", "test")]

/-- A concrete non-Windows evaluation environment: `sys_platform` is `linux`. -/
def linuxEnv : String → Option String :=
  fun k => if k = "sys_platform" then some "linux" else none

/-- An environment defining no marker variables at all. -/
def nullEnv : String → Option String := fun _ => none

/-! Claim theorems. -/

/-- C1: for the archive `sample_pkg-1.2.3-py3-none-any.whl` whose METADATA
declares `Name: sample-pkg`, `Requires-Dist: six`,
`Requires-Dist: mock; extra == "test"` and `Provides-Extra: test`, the
descriptor returns distribution `sample_pkg`, version `1.2.3`,
base dependencies `["six"]`, test-extra dependencies `["mock", "six"]`
(base dependencies included additively), and extras set `{"test"}` —
whatever the ambient default marker environment is. -/
theorem C1_sample_wheel_end_to_end (baseEnv : String → Option String) :
    sampleWheel.distribution = some "sample_pkg" ∧
    sampleWheel.version = some "1.2.3" ∧
    (Wheel.dependencies sampleFs baseEnv sampleWheel none).map Prod.fst =
      some ["six"] ∧
    (Wheel.dependencies sampleFs baseEnv sampleWheel (some "test")).map Prod.fst =
      some ["mock", "six"] ∧
    (Wheel.extras sampleFs sampleWheel).map Prod.fst = some ["test"] :=
  ⟨rfl, rfl, rfl, rfl, rfl⟩

/-- C2: whenever `dependencies(extra)` returns a sequence, that sequence is
strictly sorted in the lexicographic string order (hence duplicate-free), and
the result is unchanged under any permutation of the `Requires-Dist` header
values — the output order never depends on header insertion order (and the
embedding has no set-iteration order to depend on). -/
theorem C2_dependencies_sorted_nodup_deterministic
    (baseEnv : String → Option String) (requiresDist : List String)
    (extra : Option String) (l : List String)
    (h : dependenciesOf baseEnv requiresDist extra = some l) :
    l.Pairwise (fun a b => pyStrLt a b = true) ∧ l.Nodup ∧
    ∀ rd2 : List String, List.Perm requiresDist rd2 →
      dependenciesOf baseEnv rd2 extra = some l := by
  have h' := h
  unfold dependenciesOf at h'
  rcases Option.map_eq_some'.mp h' with ⟨s, _, hps⟩
  refine ⟨?_, ?_, ?_⟩
  · rw [← hps]
    exact pairwise_lt_pySortedSet s
  · rw [← hps]
    exact nodup_pySortedSet s
  · intro rd2 hperm
    exact dependenciesOf_perm hperm h

/-- Witness for C2 at a concrete input: `["six", "mock", "six"]` yields the
strictly sorted duplicate-free `["mock", "six"]`, and the permuted header
list `["mock", "six", "six"]` yields the identical output. -/
theorem C2_witness :
    (["mock", "six"] : List String).Pairwise (fun a b => pyStrLt a b = true) ∧
    dependenciesOf nullEnv ["mock", "six", "six"] none = some ["mock", "six"] := by
  have h := C2_dependencies_sorted_nodup_deterministic nullEnv
    ["six", "mock", "six"] none ["mock", "six"] rfl
  exact ⟨h.1, h.2.2 ["mock", "six", "six"]
    ((List.Perm.swap "mock" "six" ["six"]).trans (List.Perm.refl _))⟩

/-- C3 counterexample: with METADATA containing both `Requires-Dist: six`
and `Requires-Dist: six; sys_platform == "win32"`, evaluated on a Linux
environment, the second entry's marker evaluates false and yet `six` does
appear in dependencies(None) — the claim's "does not appear" fails when a
different entry contributes the same specifier. -/
theorem C3_counterexample_duplicate_specifier :
    parseRequirement "six; sys_platform == \x22win32\x22" =
      some ⟨"six", [], some (Marker.comp "sys_platform" MOp.eq "win32")⟩ ∧
    evalMarker (extendEnv linuxEnv none)
      (Marker.comp "sys_platform" MOp.eq "win32") = some false ∧
    dependenciesOf linuxEnv ["six", "six; sys_platform == \x22win32\x22"] none =
      some ["six"] ∧
    "six" ∈ (["six"] : List String) :=
  ⟨rfl, rfl, rfl, List.mem_cons_self _ _⟩

/-- C3 (amended): a `Requires-Dist` entry whose marker evaluates false
against the extra-less environment is discarded: deleting it from the header
list leaves dependencies(None) unchanged, and consequently its specifier is
absent from the output whenever no other entry that is kept (one with no
marker, or whose marker evaluates true) projects to the same specifier. -/
theorem C3_false_marker_entry_discarded (baseEnv : String → Option String)
    (rd1 rd2 : List String) (r : String) (req : Requirement) (m : Marker)
    (hp : parseRequirement r = some req) (hm : req.marker = some m)
    (he : evalMarker (extendEnv baseEnv none) m = some false) :
    dependenciesOf baseEnv (rd1 ++ r :: rd2) none =
      dependenciesOf baseEnv (rd1 ++ rd2) none ∧
    ∀ l, dependenciesOf baseEnv (rd1 ++ r :: rd2) none = some l →
      (∀ r2, r2 ∈ rd1 ++ rd2 → ∀ req2, parseRequirement r2 = some req2 →
        markerKeep (extendEnv baseEnv none) req2 = some true →
        project req2 ≠ project req) →
      project req ∉ l := by
  have hpe : perEntry (extendEnv baseEnv none) r = some none := by
    simp only [perEntry, hp, markerKeep, hm, he]
    rfl
  constructor
  · unfold dependenciesOf
    rw [collectSpecs_middle_skip hpe rd1 rd2]
  · intro l hl hother hmem
    unfold dependenciesOf at hl
    rcases Option.map_eq_some'.mp hl with ⟨s, hs, hps⟩
    rw [collectSpecs_middle_skip hpe rd1 rd2] at hs
    rw [← hps] at hmem
    rcases exists_entry_of_mem_collectSpecs hs (mem_pySortedSet.mp hmem)
      with ⟨r2, hr2mem, hr2⟩
    rcases perEntry_eq_some_some hr2 with ⟨req2, hp2, hk2, hproj2⟩
    exact hother r2 hr2mem req2 hp2 hk2 hproj2

/-- Witness for C3 at a concrete input: deleting the false-marker entry
leaves dependencies(None) unchanged. -/
theorem C3_witness :
    dependenciesOf linuxEnv ["mock", "six; sys_platform == \x22win32\x22"] none =
      dependenciesOf linuxEnv ["mock"] none :=
  (C3_false_marker_entry_discarded linuxEnv ["mock"] []
    "six; sys_platform == \x22win32\x22"
    ⟨"six", [], some (Marker.comp "sys_platform" MOp.eq "win32")⟩
    (Marker.comp "sys_platform" MOp.eq "win32") rfl rfl rfl).1

/-- C4 counterexample: with METADATA containing both `Requires-Dist: mock`
and `Requires-Dist: mock; extra == "test"`, the marked entry's dependency
`mock` does appear in dependencies(None) — the claim's "does not appear in
dependencies(None)" fails when another entry contributes the same
specifier. -/
theorem C4_counterexample_duplicate_specifier :
    parseRequirement "mock; extra == \x22test\x22" =
      some ⟨"mock", [], some (Marker.comp "extra" MOp.eq "test")⟩ ∧
    dependenciesOf nullEnv ["mock", "mock; extra == \x22test\x22"] none =
      some ["mock"] ∧
    "mock" ∈ (["mock"] : List String) :=
  ⟨rfl, rfl, List.mem_cons_self _ _⟩

/-- C4 (amended): a `Requires-Dist` entry whose marker is exactly
`extra == "test"` contributes its specifier to every successful
dependencies("test") result that processes it — the `extra` variable being
overridden to `test` in the environment; and under dependencies(None) —
where `extra` is present but `None` — the entry is discarded: deleting it
leaves the output unchanged (so its dependency is absent unless another
entry contributes the same specifier). -/
theorem C4_extra_marker_dependencies (baseEnv : String → Option String)
    (r : String) (req : Requirement)
    (hp : parseRequirement r = some req)
    (hm : req.marker = some (Marker.comp "extra" MOp.eq "test")) :
    (∀ rd l, dependenciesOf baseEnv rd (some "test") = some l → r ∈ rd →
      project req ∈ l) ∧
    (∀ rd1 rd2, dependenciesOf baseEnv (rd1 ++ r :: rd2) none =
      dependenciesOf baseEnv (rd1 ++ rd2) none) := by
  have htrue : perEntry (extendEnv baseEnv (some "test")) r =
      some (some (project req)) := by
    simp only [perEntry, hp, markerKeep, hm]
    rfl
  have hfalse : perEntry (extendEnv baseEnv none) r = some none := by
    simp only [perEntry, hp, markerKeep, hm]
    rfl
  constructor
  · intro rd l hl hr
    unfold dependenciesOf at hl
    rcases Option.map_eq_some'.mp hl with ⟨s, hs, hps⟩
    rw [← hps]
    exact mem_pySortedSet.mpr (mem_collectSpecs hs hr htrue)
  · intro rd1 rd2
    unfold dependenciesOf
    rw [collectSpecs_middle_skip hfalse rd1 rd2]

/-- Witness for C4 at a concrete input: the marked entry `mock` appears in
dependencies("test") and deleting it leaves dependencies(None) unchanged. -/
theorem C4_witness :
    "mock" ∈ (["mock"] : List String) ∧
    dependenciesOf nullEnv ["mock; extra == \x22test\x22"] none =
      dependenciesOf nullEnv [] none := by
  have h := C4_extra_marker_dependencies nullEnv "mock; extra == \x22test\x22"
    ⟨"mock", [], some (Marker.comp "extra" MOp.eq "test")⟩ rfl rfl
  exact ⟨h.1 ["mock; extra == \x22test\x22"] ["mock"] rfl
    (List.mem_cons_self _ _), h.2 [] []⟩

/-- C5 counterexample: the requirement `foo[baz,bar]` is projected to
`foo[bar,baz]` — the extras render in the canonical order of the parsed
extras set, not the written order, so `foo[baz,bar]` is not in the output. -/
theorem C5_counterexample_written_order :
    parseRequirement "foo[baz,bar]" = some ⟨"foo", ["bar", "baz"], none⟩ ∧
    dependenciesOf nullEnv ["foo[baz,bar]"] none = some ["foo[bar,baz]"] ∧
    "foo[baz,bar]" ∉ (["foo[bar,baz]"] : List String) := by
  refine ⟨rfl, rfl, ?_⟩
  decide

/-- C5 (amended): a requirement that requests extras on its target is
projected to exactly its name followed by the bracketed comma-join of its
extras with no whitespace — the extras in the order of the parsed extras set
(sorted, deduplicated), which coincides with the written order for
`foo[bar,baz]`. -/
theorem C5_subextras_projection (baseEnv : String → Option String)
    (rd : List String) (extra : Option String) (l : List String)
    (r : String) (req : Requirement)
    (h : dependenciesOf baseEnv rd extra = some l) (hr : r ∈ rd)
    (hp : parseRequirement r = some req) (hm : req.marker = none)
    (hx : req.extras ≠ []) :
    req.name ++ "[" ++ String.intercalate "," req.extras ++ "]" ∈ l ∧
    req.extras.Pairwise (fun a b => pyStrLt a b = true) := by
  have hproj : project req =
      req.name ++ "[" ++ String.intercalate "," req.extras ++ "]" := by
    cases hc : req.extras with
    | nil => exact absurd hc hx
    | cons a as => simp [project, hc]
  have hpe : perEntry (extendEnv baseEnv extra) r = some (some (project req)) := by
    simp only [perEntry, hp, markerKeep, hm]
    rfl
  constructor
  · rw [← hproj]
    unfold dependenciesOf at h
    rcases Option.map_eq_some'.mp h with ⟨s, hs, hps⟩
    rw [← hps]
    exact mem_pySortedSet.mpr (mem_collectSpecs hs hr hpe)
  · rcases parseRequirement_extras_canonical hp with ⟨es, hes⟩
    rw [hes]
    exact pairwise_lt_pySortedSet es

/-- Witness for C5 at a concrete input: `foo[bar,baz]` is projected to
exactly `foo[bar,baz]`. -/
theorem C5_witness :
    ("foo" ++ "[" ++ String.intercalate "," ["bar", "baz"] ++ "]") ∈
      (["foo[bar,baz]"] : List String) ∧
    (["bar", "baz"] : List String).Pairwise (fun a b => pyStrLt a b = true) :=
  C5_subextras_projection nullEnv ["foo[bar,baz]"] none ["foo[bar,baz]"]
    "foo[bar,baz]" ⟨"foo", ["bar", "baz"], none⟩ rfl (List.mem_cons_self _ _)
    rfl rfl (by decide)

/-- C6: for every archive whose base filename is `D-V-py3-none-any.whl` with
hyphen-free `D` and `V`, the descriptor's distribution is `D` and its
version is `V` — both pure functions of the path. -/
theorem C6_filename_identity (w : Wheel) (D V : String)
    (hD : '-' ∉ D.data) (hV : '-' ∉ V.data)
    (hb : Wheel.basename w = D ++ "-" ++ V ++ "-py3-none-any.whl") :
    w.distribution = some D ∧ w.version = some V := by
  have hs := pySplit_wheel_name hD hV hb
  constructor
  · unfold Wheel.distribution
    rw [hs]
    rfl
  · unfold Wheel.version
    rw [hs]
    rfl

/-- Witness for C6 at a concrete path (with a directory prefix, stripped by
basename). -/
theorem C6_witness :
    Wheel.distribution ⟨"dir/sample_pkg-1.2.3-py3-none-any.whl", none⟩ =
      some "sample_pkg" ∧
    Wheel.version ⟨"dir/sample_pkg-1.2.3-py3-none-any.whl", none⟩ =
      some "1.2.3" :=
  C6_filename_identity ⟨"dir/sample_pkg-1.2.3-py3-none-any.whl", none⟩
    "sample_pkg" "1.2.3" (by decide) (by decide) rfl

/-- C7: whenever `metadata()` returns on some descriptor state, calling it
again on the resulting state returns the identical parsed value and the
identical state while opening the archive zero times — the value is cached
in the descriptor and never recomputed or invalidated. -/
theorem C7_metadata_memoized (fs : String → Option ZipArchive) (w : Wheel)
    (m : List (String × String)) (w2 : Wheel) (n : Nat)
    (h : w.metadata fs = some (m, w2, n)) :
    Wheel.metadata fs w2 = some (m, w2, 0) ∧ w2._metadata = some m := by
  rcases hc : w._metadata with _ | m0 <;> simp only [Wheel.metadata, hc] at h
  · rcases hdi : w._dist_info with _ | di <;> simp only [hdi] at h
    · exact Option.noConfusion h
    · rcases hfs : fs w.path with _ | z <;> simp only [hfs] at h
      · exact Option.noConfusion h
      · rcases hzr : zipOpenRead z (di ++ "/METADATA") with _ | raw <;>
          simp only [hzr] at h
        · exact Option.noConfusion h
        · cases h
          exact ⟨by simp only [Wheel.metadata], rfl⟩
  · cases h
    exact ⟨by simp only [Wheel.metadata, hc], hc⟩

/-- Witness for C7: the sample wheel's first metadata call fills the cache;
the second call returns the identical value with zero archive reads. -/
theorem C7_witness :
    Wheel.metadata sampleFs
        ⟨"sample_pkg-1.2.3-py3-none-any.whl", some sampleHeaders⟩ =
      some (sampleHeaders,
        ⟨"sample_pkg-1.2.3-py3-none-any.whl", some sampleHeaders⟩, 0) ∧
    Wheel._metadata ⟨"sample_pkg-1.2.3-py3-none-any.whl", some sampleHeaders⟩ =
      some sampleHeaders :=
  C7_metadata_memoized sampleFs sampleWheel sampleHeaders
    ⟨"sample_pkg-1.2.3-py3-none-any.whl", some sampleHeaders⟩ 1 rfl

/-- C8 counterexample: for the archive `foo.whl`, whose base filename
contains no hyphen at all, `version()` fails (the modeled `IndexError`,
`none`) rather than silently returning a garbage value, while
`distribution()` silently returns the whole filename. -/
theorem C8_counterexample_no_hyphen :
    Wheel.version ⟨"foo.whl", none⟩ = none ∧
    Wheel.distribution ⟨"foo.whl", none⟩ = some "foo.whl" :=
  ⟨rfl, rfl⟩

/-- C8 (amended): `distribution()` never fails on a malformed filename (it
silently returns the first hyphen-delimited segment), and `version()` does
not fail — silently returning a garbage segment — whenever the base filename
contains at least one hyphen; with no hyphen at all, `version()` raises
`IndexError` instead of returning a value. -/
theorem C8_lenient_filename (w : Wheel) :
    (w.distribution).isSome = true ∧
    ('-' ∈ (Wheel.basename w).data → (w.version).isSome = true) := by
  constructor
  · have hne := pySplitCh_ne_nil '-' (Wheel.basename w).data
    have hpos : 0 < (pySplit '-' (Wheel.basename w)).length := by
      simp only [pySplit, List.length_map]
      exact List.length_pos.mpr hne
    unfold Wheel.distribution
    rw [List.getElem?_eq_getElem hpos]
    rfl
  · intro hmem
    have h2 := two_le_length_pySplitCh hmem
    have hlt : 1 < (pySplit '-' (Wheel.basename w)).length := by
      simp only [pySplit, List.length_map]
      omega
    unfold Wheel.version
    rw [List.getElem?_eq_getElem hlt]
    rfl

/-- Witness for C8: a filename with one hyphen yields garbage values for
both accessors without failing. -/
theorem C8_witness :
    (Wheel.distribution ⟨"a-b.whl", none⟩).isSome = true ∧
    (Wheel.version ⟨"a-b.whl", none⟩).isSome = true := by
  have h := C8_lenient_filename ⟨"a-b.whl", none⟩
  exact ⟨h.1, h.2 (by decide)⟩

/-- C9: during `expand`, an entry whose name ends in a path separator is
skipped with no permission change; any other entry whose stored mode (the
upper 16 bits of the external attributes) is a regular file with at least
one execute bit gets exactly one chmod of the extracted file to
`(0o777 & ~umask) | 0o111`, and that chmod is among the calls the
extraction pass performs. -/
theorem C9_expand_permission_fixup (umask : Nat) (dir : String) (e : ZipEntry) :
    (isDirEntryName e.filename = true → chmodAction umask dir e = none) ∧
    (isDirEntryName e.filename = false →
      S_ISREG (e.external_attr / 65536) = true →
      pyAnd (e.external_attr / 65536) 0o111 ≠ 0 →
      chmodAction umask dir e =
        some (pathJoin dir e.filename, default_mode_plus_executable umask)) ∧
    (∀ z : ZipArchive, e ∈ z.entries → ∀ w : Wheel,
      ∀ fs : String → Option ZipArchive, fs w.path = some z →
      ∀ a, chmodAction umask dir e = some a →
      ∃ acts, Wheel.expandChmods umask fs w dir = some acts ∧ a ∈ acts) := by
  refine ⟨?_, ?_, ?_⟩
  · intro hd
    simp [chmodAction, hd]
  · intro hd hreg hexec
    have hmode : (e.external_attr / 65536) ≠ 0 := by
      intro h0
      rw [h0] at hreg
      exact absurd hreg (by decide)
    have hcond : ((e.external_attr / 65536 != 0) &&
        S_ISREG (e.external_attr / 65536) &&
        (pyAnd (e.external_attr / 65536) 0o111 != 0)) = true := by
      simp only [Bool.and_eq_true, bne_iff_ne]
      exact ⟨⟨hmode, hreg⟩, hexec⟩
    simp only [chmodAction, hd, Bool.false_eq_true, if_false, hcond, if_true]
  · intro z hz w fs hfs a ha
    refine ⟨z.entries.filterMap (chmodAction umask dir), ?_, ?_⟩
    · simp [Wheel.expandChmods, hfs]
    · exact List.mem_filterMap.mpr ⟨e, hz, ha⟩

/-- Witness for C9: a regular-file entry with mode 0o755 under umask 0o022
is chmodded to 0o755 (which is `(0o777 & ~0o022) | 0o111`). -/
theorem C9_witness :
    chmodAction 0o022 "out" ⟨"bin/tool", 0o100755 * 65536, ""⟩ =
      some ("out/bin/tool", 0o755) := by
  have h := (C9_expand_permission_fixup 0o022 "out"
    ⟨"bin/tool", 0o100755 * 65536, ""⟩).2.1 (by decide) (by decide) (by decide)
  rw [h]
  decide

/-- C10: whenever both identity accessors succeed, `repository_suffix()`
returns `pypi__` + distribution + `_` + version with every `-`, `.` and `+`
replaced by `_`, and the result contains no hyphen, dot, or plus sign. -/
theorem C10_repository_suffix_escaped (w : Wheel) (d v : String)
    (hd : w.distribution = some d) (hv : w.version = some v) :
    w.repository_suffix = some (reSubIllegal ("pypi__" ++ d ++ "_" ++ v)) ∧
    ∀ c ∈ (reSubIllegal ("pypi__" ++ d ++ "_" ++ v)).data,
      c ≠ '-' ∧ c ≠ '.' ∧ c ≠ '+' := by
  constructor
  · simp only [Wheel.repository_suffix, hd, hv]
  · intro c hc
    simp only [reSubIllegal, data_string_mk] at hc
    rcases List.mem_map.mp hc with ⟨c0, _, rfl⟩
    unfold escapeChar
    by_cases hb : (c0 = '-' || c0 = '.' || c0 = '+') = true
    · rw [if_pos hb]
      exact ⟨by decide, by decide, by decide⟩
    · rw [if_neg hb]
      simp only [Bool.or_eq_true, decide_eq_true_eq, not_or] at hb
      exact ⟨hb.1.1, hb.1.2, hb.2⟩

/-- Witness for C10: a version containing `.` and `+` is fully escaped. -/
theorem C10_witness :
    Wheel.repository_suffix ⟨"foo-1.2.3+local-py3-none-any.whl", none⟩ =
      some "pypi__foo_1_2_3_local" := by
  have h := (C10_repository_suffix_escaped
    ⟨"foo-1.2.3+local-py3-none-any.whl", none⟩ "foo" "1.2.3+local" rfl rfl).1
  rw [h]
  rfl

end RulesPythonWhl
